import Mathlib

/-!
Verification of the core of hop.kak (src/main.rs): the label trie
(`Trie::grow`, `Trie::grow_repeatedly`, `Trie::labels`, `Trie::labels_`),
label generation (`App::generate_labels`) and interactive reduction
(`App::reduce`).

Modelling conventions:
* Rust `String` / `&str` values are lists of characters (`List Char`).
* `Trie::grow` is recursive and, for some inputs, either panics
  (`usize` underflow followed by an out-of-bounds index when the keyset is
  empty) or fails to terminate (keyset of size 1).  It is therefore
  embedded as a fuelled function returning `Except GrowErr Trie`:
  `GrowErr.panic` models the Rust panic, and a result of
  `GrowErr.outOfFuel` for every fuel value models divergence.
* All other functions are total and are embedded directly.
-/

namespace Hop

/-- `struct Trie` (main.rs): a node holding a key character and an ordered
list of children.  (The child-list field is called `below` in the source;
the projection here is `below'` because Lean reserves `Trie.below` for an
auto-generated recursion helper.) -/
inductive Trie where
  | mk (key : Char) (below : List Trie)

/-- Projection onto the `key` field of a `Trie` node. -/
def Trie.key : Trie → Char
  | ⟨k, _⟩ => k

/-- Projection onto the `below` field (children list) of a `Trie` node. -/
def Trie.below' : Trie → List Trie
  | ⟨_, bs⟩ => bs

/-- `Trie::default()` (main.rs): the root node, key `' '` (ignored), no
children. -/
def Trie.default : Trie := ⟨' ', []⟩

/-- How a fuelled run of the growth recursion can fail: `panic` models the
Rust panic coming from `self.below.len() - 1` underflow / out-of-bounds
indexing; `outOfFuel` means the recursion depth exceeded the fuel. -/
inductive GrowErr where
  | panic
  | outOfFuel
deriving DecidableEq

/-- The predicate used by `rfind` inside `Trie::grow`: a node whose child
count is still below the keyset size. -/
def hasRoom (k : Nat) (t : Trie) : Bool := t.below'.length < k

/-- Index of the last element satisfying `hasRoom`, mirroring
`Iterator::rfind` over `self.below.iter_mut()` in `Trie::grow`. -/
def rfindIdx (k : Nat) : List Trie → Option Nat
  | [] => none
  | t :: ts =>
    match rfindIdx k ts with
    | some i => some (i + 1)
    | none => if hasRoom k t then some 0 else none

/-- `Trie::grow` (main.rs), with explicit fuel bounding the recursion
depth.  Branches, in source order: if the node is not saturated, push a new
leaf labelled `keyset[self.below.len()]`; otherwise `rfind` the last child
with room (growing it twice when it is a leaf, once otherwise); otherwise
recurse into the child at index `self.below.len() - 1`, which for an empty
child list is the underflow/out-of-range panic. -/
def growE : Nat → List Char → Trie → Except GrowErr Trie
  | 0, _, _ => .error .outOfFuel
  | fuel + 1, keyset, ⟨key, below⟩ =>
    if below.length < keyset.length then
      .ok ⟨key, below ++ [⟨keyset.getD below.length ' ', []⟩]⟩
    else
      match rfindIdx keyset.length below with
      | some i =>
        match below[i]? with
        | some node => do
          let node ← if node.below'.isEmpty then growE fuel keyset node else .ok node
          let node ← growE fuel keyset node
          .ok ⟨key, below.set i node⟩
        | none => .error .panic
      | none =>
        match below.getLast? with
        | none => .error .panic
        | some last => do
          let last ← growE fuel keyset last
          .ok ⟨key, below.dropLast ++ [last]⟩

/-- `Trie::grow_repeatedly` (main.rs): `n` sequential `grow` calls, each
run with the same fuel bound. -/
def growRepeatedlyE (fuel : Nat) (keyset : List Char) : Nat → Trie → Except GrowErr Trie
  | 0, t => .ok t
  | n + 1, t => do
    let t ← growE fuel keyset t
    growRepeatedlyE fuel keyset n t

mutual
/-- `Trie::labels_` (main.rs): extend `path` with this node's key; if the
node is a leaf emit the extended path, otherwise recurse into the children
in stored order. -/
def Trie.labels_ : Trie → List Char → List (List Char)
  | ⟨key, []⟩, path => [path ++ [key]]
  | ⟨key, b :: bs⟩, path => labelsGo (b :: bs) (path ++ [key])
/-- The `for below in &self.below` loop of `Trie::labels_`/`Trie::labels`:
concatenation of the labels of a list of sibling subtrees. -/
def labelsGo : List Trie → List Char → List (List Char)
  | [], _ => []
  | t :: ts, path => Trie.labels_ t path ++ labelsGo ts path
end

/-- `Trie::labels` (main.rs): labels of the root's children, each starting
from the empty path (the root key is excluded). -/
def Trie.labels (t : Trie) : List (List Char) :=
  labelsGo t.below' []

mutual
/-- Number of leaves of a subtree (the number of labels it emits). -/
def leafCount : Trie → Nat
  | ⟨_, []⟩ => 1
  | ⟨_, b :: bs⟩ => leafCountGo (b :: bs)
/-- Total number of leaves of a list of sibling subtrees. -/
def leafCountGo : List Trie → Nat
  | [] => 0
  | t :: ts => leafCount t + leafCountGo ts
end

mutual
/-- Height of a trie: `0` for a leaf, one more than the tallest child
otherwise. -/
def Trie.height : Trie → Nat
  | ⟨_, bs⟩ => heightGo bs
/-- Height bookkeeping for a list of sibling subtrees. -/
def heightGo : List Trie → Nat
  | [] => 0
  | t :: ts => max (t.height + 1) (heightGo ts)
end

mutual
/-- Structural invariant maintained by growth: at every node the children's
keys are exactly the first `children-count` symbols of the keyset, in
order. -/
def goodKeys (ks : List Char) : Trie → Prop
  | ⟨_, bs⟩ => bs.map Trie.key = ks.take bs.length ∧ goodKeysGo ks bs
/-- `goodKeys` for every member of a list of sibling subtrees. -/
def goodKeysGo (ks : List Char) : List Trie → Prop
  | [] => True
  | t :: ts => goodKeys ks t ∧ goodKeysGo ks ts
end

/-- `a` is a prefix of `b` (the spec's "no Label is a prefix of another"
relation, written without any library unfolding). -/
def IsPrefOf (a b : List Char) : Prop := ∃ rest, b = a ++ rest

/-- `struct Pos` (main.rs): a line/column position in the buffer. -/
structure Pos where
  line : Nat
  col : Nat
deriving DecidableEq

/-- `struct Sel` (main.rs): a selection given by two positions.  The second
field is called `end` in the source (a Lean keyword, so `stop` here). -/
structure Sel where
  start : Pos
  stop : Pos
deriving DecidableEq

/-- `struct ReplaceRange` (main.rs): a selection together with the label
(or remaining label suffix) attached to it. -/
structure ReplaceRange where
  sel : Sel
  label : List Char
deriving DecidableEq

/-- `enum Response` (main.rs).  `Cleanup` is the structured outcome the
spec calls `Cancelled`; `Reduced` carries the surviving candidates. -/
inductive Response where
  | Cleanup
  | LabelsGenerated (replace_ranges : List ReplaceRange)
  | Reduced (replace_ranges : List ReplaceRange)
deriving DecidableEq

/-- `str::strip_prefix` (as used in `App::reduce`): `some` of the remaining
suffix when the first argument is a prefix of the second, `none`
otherwise. -/
def stripPref : List Char → List Char → Option (List Char)
  | [], s => some s
  | _ :: _, [] => none
  | p :: ps, c :: cs => if p = c then stripPref ps cs else none

/-- The abort key `"<esc>"` checked first by `App::reduce`. -/
def escKey : List Char := ['<', 'e', 's', 'c', '>']

/-- `App::reduce` (main.rs): on the abort key return `Cleanup`; otherwise
zip selections with labels and keep, order-preservingly, those whose label
has the typed key as a prefix, stripping that prefix. -/
def reduce (sels : List Sel) (labels : List (List Char)) (key : List Char) : Response :=
  if key = escKey then .Cleanup
  else
    .Reduced ((sels.zip labels).filterMap fun p =>
      (stripPref key p.2).map fun rest => ⟨p.1, rest⟩)

/-- `App::generate_labels` (main.rs): grow a fresh trie once per selection,
then zip the extracted labels positionally with the selections. -/
def generate_labels (fuel : Nat) (sels : List Sel) (keyset : List Char) :
    Except GrowErr Response := do
  let trie ← growRepeatedlyE fuel keyset sels.length Trie.default
  .ok (.LabelsGenerated ((trie.labels.zip sels).map fun p => ⟨p.2, p.1⟩))

/-- One step of the interactive session: the reduce callback printed by the
program feeds the current ranges' selections and labels back into
`App::reduce` together with the key the user typed. -/
def reduceStep (rs : List ReplaceRange) (key : List Char) : Response :=
  reduce (rs.map fun r => r.sel) (rs.map fun r => r.label) key

/-- The candidate list produced by one non-abort reduction step (the
payload of the `Reduced` response of `reduceStep`). -/
def stepRanges (rs : List ReplaceRange) (key : List Char) : List ReplaceRange :=
  rs.filterMap fun r => (stripPref key r.label).map fun rest => ⟨r.sel, rest⟩

/-- Feeding a sequence of single typed symbols, one reduction step at a
time, to a candidate list.  (A single symbol is never the multi-character
abort key, so every step yields a `Reduced` response; the `[]` fallback is
unreachable and exists only to totalise the `match`.) -/
def feed : List ReplaceRange → List Char → List ReplaceRange
  | rs, [] => rs
  | rs, c :: cs =>
    match reduceStep rs [c] with
    | .Reduced rs' => feed rs' cs
    | _ => []

/-- Modelled from the spec (§4.4) for the refinement comparison with
`App::reduce`: keep exactly the candidates whose remaining label suffix
begins with the typed symbol, stripping that one leading symbol. -/
def reduceSpec (cands : List ReplaceRange) (c : Char) : List ReplaceRange :=
  cands.filterMap fun r =>
    match r.label with
    | [] => none
    | x :: rest => if x = c then some ⟨r.sel, rest⟩ else none

/-- Sample selection (1.1,1.2) for concrete witnesses. -/
def sel1 : Sel := ⟨⟨1, 1⟩, ⟨1, 2⟩⟩

/-- Sample selection (2.1,2.2) for concrete witnesses. -/
def sel2 : Sel := ⟨⟨2, 1⟩, ⟨2, 2⟩⟩

/-- The trie obtained by growing a fresh trie ten times over the keyset
`{a,b,c,d}` (the spec's §8 regression vector). -/
def trie10 : Trie :=
  ⟨' ', [⟨'a', []⟩, ⟨'b', []⟩,
    ⟨'c', [⟨'a', []⟩, ⟨'b', []⟩, ⟨'c', []⟩, ⟨'d', []⟩]⟩,
    ⟨'d', [⟨'a', []⟩, ⟨'b', []⟩, ⟨'c', []⟩, ⟨'d', []⟩]⟩]⟩


/-! ### Basic lemmas about the embedded definitions -/

@[simp] theorem Trie.key_mk (k : Char) (bs : List Trie) : (Trie.mk k bs).key = k := rfl

@[simp] theorem Trie.below'_mk (k : Char) (bs : List Trie) : (Trie.mk k bs).below' = bs := rfl

theorem except_bind_ok {ε α β : Type} (x : Except ε α) (f : α → Except ε β) (b : β) :
    (x >>= f) = .ok b ↔ ∃ a, x = .ok a ∧ f a = .ok b := by
  cases x <;> simp [Bind.bind, Except.bind]

theorem except_bind_error {ε α β : Type} (x : Except ε α) (f : α → Except ε β) (e : ε) :
    (x >>= f) = .error e ↔ x = .error e ∨ ∃ a, x = .ok a ∧ f a = .error e := by
  cases x <;> simp [Bind.bind, Except.bind]

/-- Mutual structural induction for `Trie` and lists of tries, by strong
induction on sizes. -/
theorem trie_ind (P : Trie → Prop) (Q : List Trie → Prop)
    (hnil : Q [])
    (hcons : ∀ t ts, P t → Q ts → Q (t :: ts))
    (hmk : ∀ k bs, Q bs → P ⟨k, bs⟩) :
    (∀ t, P t) ∧ ∀ ts, Q ts := by
  have main : ∀ n, (∀ t : Trie, sizeOf t ≤ n → P t) ∧ ∀ ts : List Trie, sizeOf ts ≤ n → Q ts := by
    intro n
    induction n using Nat.strong_induction_on with
    | _ n ih =>
      constructor
      · intro t hle
        cases t with
        | mk k bs =>
          apply hmk
          simp only [Trie.mk.sizeOf_spec] at hle
          exact (ih (sizeOf bs) (by omega)).2 bs le_rfl
      · intro ts hle
        cases ts with
        | nil => exact hnil
        | cons t ts' =>
          simp only [List.cons.sizeOf_spec] at hle
          exact hcons t ts' ((ih (sizeOf t) (by omega)).1 t le_rfl)
            ((ih (sizeOf ts') (by omega)).2 ts' le_rfl)
  exact ⟨fun t => (main (sizeOf t)).1 t le_rfl, fun ts => (main (sizeOf ts)).2 ts le_rfl⟩

theorem rfindIdx_some {k : Nat} :
    ∀ {ts : List Trie} {i : Nat}, rfindIdx k ts = some i →
      ∃ node, ts[i]? = some node ∧ hasRoom k node = true := by
  intro ts
  induction ts with
  | nil => intro i h; simp [rfindIdx] at h
  | cons t ts ih =>
    intro i h
    rw [rfindIdx] at h
    cases hr : rfindIdx k ts with
    | some j =>
      rw [hr] at h
      obtain ⟨node, hn, hroom⟩ := ih hr
      cases h
      exact ⟨node, by simpa using hn, hroom⟩
    | none =>
      rw [hr] at h
      by_cases hroom : hasRoom k t
      · rw [if_pos hroom] at h
        cases h
        exact ⟨t, by simp, hroom⟩
      · rw [if_neg hroom] at h
        cases h

theorem rfindIdx_none {k : Nat} :
    ∀ {ts : List Trie}, rfindIdx k ts = none → ∀ b ∈ ts, hasRoom k b = false := by
  intro ts
  induction ts with
  | nil => intro _ b hb; cases hb
  | cons t ts ih =>
    intro h b hb
    rw [rfindIdx] at h
    cases hr : rfindIdx k ts with
    | some j => rw [hr] at h; cases h
    | none =>
      rw [hr] at h
      by_cases hroom : hasRoom k t
      · rw [if_pos hroom] at h; cases h
      · rw [if_neg hroom] at h
        rcases List.mem_cons.mp hb with rfl | hb
        · simpa using hroom
        · exact ih hr b hb

@[simp] theorem leafCountGo_nil : leafCountGo [] = 0 := rfl

@[simp] theorem leafCountGo_cons (t : Trie) (ts : List Trie) :
    leafCountGo (t :: ts) = leafCount t + leafCountGo ts := rfl

theorem leafCount_of_nil {t : Trie} (h : t.below' = []) : leafCount t = 1 := by
  cases t with
  | mk k bs => cases bs with
    | nil => rfl
    | cons b bs' => simp [Trie.below'] at h

theorem leafCount_of_ne_nil {t : Trie} (h : t.below' ≠ []) :
    leafCount t = leafCountGo t.below' := by
  cases t with
  | mk k bs => cases bs with
    | nil => simp [Trie.below'] at h
    | cons b bs' => rfl

theorem leafCountGo_append (l₁ l₂ : List Trie) :
    leafCountGo (l₁ ++ l₂) = leafCountGo l₁ + leafCountGo l₂ := by
  induction l₁ with
  | nil => simp
  | cons t ts ih => simp [ih]; omega

@[simp] theorem labelsGo_nil (path : List Char) : labelsGo [] path = [] := rfl

@[simp] theorem labelsGo_cons (t : Trie) (ts : List Trie) (path : List Char) :
    labelsGo (t :: ts) path = Trie.labels_ t path ++ labelsGo ts path := rfl

theorem labels_nil_below (k : Char) (path : List Char) :
    Trie.labels_ ⟨k, []⟩ path = [path ++ [k]] := rfl

theorem labels_cons_below (k : Char) (b : Trie) (bs : List Trie) (path : List Char) :
    Trie.labels_ ⟨k, b :: bs⟩ path = labelsGo (b :: bs) (path ++ [k]) := rfl

@[simp] theorem goodKeysGo_nil (ks : List Char) : goodKeysGo ks [] = True := rfl

@[simp] theorem goodKeysGo_cons (ks : List Char) (t : Trie) (ts : List Trie) :
    goodKeysGo ks (t :: ts) = (goodKeys ks t ∧ goodKeysGo ks ts) := rfl

theorem goodKeys_mk (ks : List Char) (k : Char) (bs : List Trie) :
    goodKeys ks ⟨k, bs⟩ = (bs.map Trie.key = ks.take bs.length ∧ goodKeysGo ks bs) := rfl

@[simp] theorem heightGo_nil : heightGo [] = 0 := rfl

@[simp] theorem heightGo_cons (t : Trie) (ts : List Trie) :
    heightGo (t :: ts) = max (t.height + 1) (heightGo ts) := rfl

theorem height_mk (k : Char) (bs : List Trie) : Trie.height ⟨k, bs⟩ = heightGo bs := rfl


/-! ### Facts about a single growth step -/

theorem leafCountGo_set :
    ∀ (ts : List Trie) (i : Nat) (x node : Trie), ts[i]? = some node →
      leafCountGo (ts.set i x) + leafCount node = leafCountGo ts + leafCount x := by
  intro ts
  induction ts with
  | nil => intro i x node h; simp at h
  | cons t ts ih =>
    intro i x node h
    cases i with
    | zero =>
      simp at h
      subst h
      simp [List.set]
      omega
    | succ i =>
      simp at h
      have := ih i x node h
      simp [List.set]
      omega

theorem growE_key {fuel : Nat} {ks : List Char} {t t' : Trie} (h : growE fuel ks t = .ok t') :
    t'.key = t.key := by
  cases fuel with
  | zero => simp [growE] at h
  | succ fuel =>
    cases t with
    | mk k bs =>
      rw [growE] at h
      split at h
      · cases h
        rfl
      · split at h
        · split at h
          · rename_i node hnode
            by_cases hemp : node.below'.isEmpty
            · simp only [if_pos hemp] at h
              rw [except_bind_ok] at h
              obtain ⟨n1, _, h⟩ := h
              rw [except_bind_ok] at h
              obtain ⟨n2, _, h⟩ := h
              cases h
              rfl
            · simp only [if_neg hemp] at h
              rw [except_bind_ok] at h
              obtain ⟨n1, _, h⟩ := h
              rw [except_bind_ok] at h
              obtain ⟨n2, _, h⟩ := h
              cases h
              rfl
          · cases h
        · split at h
          · cases h
          · rw [except_bind_ok] at h
            obtain ⟨l', _, h⟩ := h
            cases h
            rfl

theorem growE_nil_keyset : ∀ (fuel : Nat) (t t' : Trie), growE fuel [] t ≠ .ok t' := by
  intro fuel
  induction fuel with
  | zero => intro t t' h; simp [growE] at h
  | succ fuel ih =>
    intro t t' h
    cases t with
    | mk k bs =>
      rw [growE] at h
      split at h
      · rename_i hlt
        simp at hlt
      · split at h
        · rename_i i hri
          obtain ⟨node, -, hroom⟩ := rfindIdx_some hri
          simp [hasRoom] at hroom
        · split at h
          · cases h
          · rw [except_bind_ok] at h
            obtain ⟨l', hgl, h⟩ := h
            exact ih _ _ hgl

theorem growE_leafCount :
    ∀ (fuel : Nat) {ks : List Char} {t t' : Trie}, ks ≠ [] →
      growE fuel ks t = .ok t' →
      leafCountGo t'.below' = leafCountGo t.below' + 1 := by
  intro fuel
  induction fuel with
  | zero => intro ks t t' _ h; simp [growE] at h
  | succ fuel ih =>
    intro ks t t' hks h
    cases t with
    | mk k bs =>
      rw [growE] at h
      split at h
      · cases h
        simp [leafCountGo_append, leafCount_of_nil]
      · split at h
        · rename_i i hri
          split at h
          · rename_i node hnode
            have hset := leafCountGo_set bs i
            by_cases hemp : node.below'.isEmpty
            · simp only [if_pos hemp] at h
              rw [except_bind_ok] at h
              obtain ⟨n1, h1, h⟩ := h
              rw [except_bind_ok] at h
              obtain ⟨n2, h2, h⟩ := h
              cases h
              have hset := hset n2 node hnode
              rw [List.isEmpty_iff] at hemp
              have hc1 : leafCountGo n1.below' = 1 := by
                rw [ih hks h1, hemp]
                rfl
              have hne1 : n1.below' ≠ [] := by
                intro he
                rw [he] at hc1
                simp at hc1
              have hc2 : leafCountGo n2.below' = 2 := by
                rw [ih hks h2, hc1]
              have hne2 : n2.below' ≠ [] := by
                intro he
                rw [he] at hc2
                simp at hc2
              have hn2 : leafCount n2 = 2 := by rw [leafCount_of_ne_nil hne2, hc2]
              have hnode1 : leafCount node = 1 := leafCount_of_nil hemp
              simp only [Trie.below'_mk]
              omega
            · simp only [if_neg hemp] at h
              rw [except_bind_ok] at h
              obtain ⟨n1, h1, h⟩ := h
              rw [except_bind_ok] at h
              obtain ⟨n2, h2, h⟩ := h
              cases h
              have hset := hset n2 node hnode
              cases h1
              rw [List.isEmpty_iff] at hemp
              have hc2 : leafCountGo n2.below' = leafCountGo node.below' + 1 := ih hks h2
              have hne2 : n2.below' ≠ [] := by
                intro he
                rw [he] at hc2
                simp at hc2
              have hn2 : leafCount n2 = leafCount node + 1 := by
                rw [leafCount_of_ne_nil hne2, hc2, leafCount_of_ne_nil hemp]
              simp only [Trie.below'_mk]
              omega
          · cases h
        · rename_i hri
          split at h
          · cases h
          · rename_i last hlast
            rw [except_bind_ok] at h
            obtain ⟨l', hgl, h⟩ := h
            cases h
            have hmem : last ∈ bs := List.mem_of_mem_getLast? hlast
            have hroom : hasRoom ks.length last = false := rfindIdx_none hri last hmem
            have hfull : ks.length ≤ last.below'.length := by
              simp [hasRoom] at hroom
              exact hroom
            have hkpos : 0 < ks.length := List.length_pos.mpr hks
            have hlastne : last.below' ≠ [] :=
              List.ne_nil_of_length_pos (Nat.lt_of_lt_of_le hkpos hfull)
            have hcl : leafCountGo l'.below' = leafCountGo last.below' + 1 := ih hks hgl
            have hnel : l'.below' ≠ [] := by
              intro he
              rw [he] at hcl
              simp at hcl
            have hdecomp : bs.dropLast ++ [last] = bs := List.dropLast_append_getLast? last hlast
            have hbs : leafCountGo bs = leafCountGo bs.dropLast + leafCount last := by
              conv_lhs => rw [← hdecomp]
              rw [leafCountGo_append]
              simp
            have hl' : leafCount l' = leafCount last + 1 := by
              rw [leafCount_of_ne_nil hnel, hcl, leafCount_of_ne_nil hlastne]
            simp only [Trie.below'_mk]
            rw [leafCountGo_append]
            simp [hl', hbs]
            omega


/-! ### Preservation of the key-layout invariant by growth -/

theorem goodKeysGo_append (ks : List Char) (l₁ l₂ : List Trie) :
    goodKeysGo ks (l₁ ++ l₂) ↔ goodKeysGo ks l₁ ∧ goodKeysGo ks l₂ := by
  induction l₁ with
  | nil => simp
  | cons t ts ih => simp [ih, and_assoc]

theorem goodKeysGo_mem {ks : List Char} :
    ∀ {ts : List Trie}, goodKeysGo ks ts → ∀ {b : Trie}, b ∈ ts → goodKeys ks b := by
  intro ts
  induction ts with
  | nil => intro _ b hb; cases hb
  | cons t ts ih =>
    intro h b hb
    rcases List.mem_cons.mp hb with rfl | hb
    · exact h.1
    · exact ih h.2 hb

theorem goodKeysGo_set {ks : List Char} :
    ∀ {ts : List Trie} (i : Nat) {x : Trie}, goodKeysGo ks ts → goodKeys ks x →
      goodKeysGo ks (ts.set i x) := by
  intro ts
  induction ts with
  | nil => intro i x _ hx; simp [List.set]
  | cons t ts ih =>
    intro i x h hx
    cases i with
    | zero => exact ⟨hx, h.2⟩
    | succ i => exact ⟨h.1, ih i h.2 hx⟩

theorem map_key_set :
    ∀ {ts : List Trie} {i : Nat} {x node : Trie}, ts[i]? = some node → x.key = node.key →
      (ts.set i x).map Trie.key = ts.map Trie.key := by
  intro ts
  induction ts with
  | nil => intro i x node h _; simp at h
  | cons t ts ih =>
    intro i x node h hk
    cases i with
    | zero =>
      simp at h
      subst h
      simp [List.set, hk]
    | succ i =>
      simp at h
      simp [List.set, ih h hk]

theorem take_succ_getD {ks : List Char} {n : Nat} (h : n < ks.length) :
    ks.take (n + 1) = ks.take n ++ [ks.getD n ' '] := by
  rw [List.take_succ, List.getD_eq_getElem ks ' ' h, List.getElem?_eq_getElem h]
  rfl

theorem goodKeys_default (ks : List Char) : goodKeys ks Trie.default := by
  constructor <;> simp

theorem growE_goodKeys :
    ∀ (fuel : Nat) {ks : List Char} {t t' : Trie},
      growE fuel ks t = .ok t' → goodKeys ks t → goodKeys ks t' := by
  intro fuel
  induction fuel with
  | zero => intro ks t t' h; simp [growE] at h
  | succ fuel ih =>
    intro ks t t' h hg
    cases t with
    | mk k bs =>
      rw [growE] at h
      split at h
      · rename_i hlt
        cases h
        refine ⟨?_, ?_⟩
        · rw [List.map_append, List.length_append, hg.1, List.map_singleton, Trie.key_mk,
            List.length_singleton, take_succ_getD hlt]
        · rw [goodKeysGo_append]
          exact ⟨hg.2, ⟨by simp, trivial⟩, trivial⟩
      · split at h
        · rename_i i hri
          split at h
          · rename_i node hnode
            have hmem : node ∈ bs := by
              rw [List.getElem?_eq_some_iff] at hnode
              obtain ⟨hlt', he⟩ := hnode
              exact he ▸ List.getElem_mem hlt'
            have hnodeg : goodKeys ks node := goodKeysGo_mem hg.2 hmem
            by_cases hemp : node.below'.isEmpty
            · simp only [if_pos hemp] at h
              rw [except_bind_ok] at h
              obtain ⟨n1, h1, h⟩ := h
              rw [except_bind_ok] at h
              obtain ⟨n2, h2, h⟩ := h
              cases h
              have hg1 : goodKeys ks n1 := ih h1 hnodeg
              have hg2 : goodKeys ks n2 := ih h2 hg1
              have hk2 : n2.key = node.key := by
                rw [growE_key h2, growE_key h1]
              refine ⟨?_, ?_⟩
              · rw [map_key_set hnode hk2, List.length_set]
                exact hg.1
              · exact goodKeysGo_set i hg.2 hg2
            · simp only [if_neg hemp] at h
              rw [except_bind_ok] at h
              obtain ⟨n1, h1, h⟩ := h
              rw [except_bind_ok] at h
              obtain ⟨n2, h2, h⟩ := h
              cases h
              cases h1
              have hg2 : goodKeys ks n2 := ih h2 hnodeg
              have hk2 : n2.key = node.key := growE_key h2
              refine ⟨?_, ?_⟩
              · rw [map_key_set hnode hk2, List.length_set]
                exact hg.1
              · exact goodKeysGo_set i hg.2 hg2
          · cases h
        · rename_i hri
          split at h
          · cases h
          · rename_i last hlast
            rw [except_bind_ok] at h
            obtain ⟨l', hgl, h⟩ := h
            cases h
            have hdecomp : bs.dropLast ++ [last] = bs := List.dropLast_append_getLast? last hlast
            have hgsplit : goodKeysGo ks bs.dropLast ∧ goodKeys ks last ∧ True := by
              have := hg.2
              rw [← hdecomp, goodKeysGo_append] at this
              exact ⟨this.1, this.2⟩
            have hgl' : goodKeys ks l' := ih hgl hgsplit.2.1
            have hkl : l'.key = last.key := growE_key hgl
            refine ⟨?_, ?_⟩
            · have hmap : (bs.dropLast ++ [l']).map Trie.key = bs.map Trie.key := by
                conv_rhs => rw [← hdecomp]
                simp [hkl]
              have hlen : (bs.dropLast ++ [l']).length = bs.length := by
                conv_rhs => rw [← hdecomp]
                simp
              rw [hmap, hlen]
              exact hg.1
            · rw [goodKeysGo_append]
              exact ⟨hgsplit.1, hgl', trivial⟩

theorem growRepeatedlyE_succ (fuel : Nat) (ks : List Char) (n : Nat) (t : Trie) (t' : Trie) :
    growRepeatedlyE fuel ks (n + 1) t = .ok t' ↔
      ∃ m, growE fuel ks t = .ok m ∧ growRepeatedlyE fuel ks n m = .ok t' := by
  rw [growRepeatedlyE, except_bind_ok]

theorem growRepeatedlyE_goodKeys :
    ∀ (n : Nat) {fuel : Nat} {ks : List Char} {t t' : Trie},
      growRepeatedlyE fuel ks n t = .ok t' → goodKeys ks t → goodKeys ks t' := by
  intro n
  induction n with
  | zero => intro fuel ks t t' h hg; cases h; exact hg
  | succ n ih =>
    intro fuel ks t t' h hg
    rw [growRepeatedlyE_succ] at h
    obtain ⟨m, h1, h2⟩ := h
    exact ih h2 (growE_goodKeys fuel h1 hg)

theorem growRepeatedlyE_leafCount :
    ∀ (n : Nat) {fuel : Nat} {ks : List Char} {t t' : Trie}, ks ≠ [] →
      growRepeatedlyE fuel ks n t = .ok t' →
      leafCountGo t'.below' = leafCountGo t.below' + n := by
  intro n
  induction n with
  | zero => intro fuel ks t t' _ h; cases h; rfl
  | succ n ih =>
    intro fuel ks t t' hks h
    rw [growRepeatedlyE_succ] at h
    obtain ⟨m, h1, h2⟩ := h
    rw [ih hks h2, growE_leafCount fuel hks h1]
    omega

theorem growRepeatedlyE_nil_keyset :
    ∀ (n : Nat) {fuel : Nat} {t t' : Trie},
      growRepeatedlyE fuel [] n t = .ok t' → n = 0 ∧ t' = t := by
  intro n
  induction n with
  | zero => intro fuel t t' h; cases h; exact ⟨rfl, rfl⟩
  | succ n ih =>
    intro fuel t t' h
    rw [growRepeatedlyE_succ] at h
    obtain ⟨m, h1, _⟩ := h
    exact absurd h1 (growE_nil_keyset fuel t m)


/-! ### Structure of the emitted labels -/

theorem pref_head_eq {path : List Char} {x y : Char} {ra rb : List Char}
    (h : IsPrefOf (path ++ x :: ra) (path ++ y :: rb)) : x = y := by
  obtain ⟨r, hr⟩ := h
  rw [List.append_assoc, List.cons_append] at hr
  have := List.append_cancel_left hr
  injection this with h1 _
  exact h1.symm

theorem labels_shape :
    (∀ t : Trie, ∀ (path : List Char) (l : List Char), l ∈ Trie.labels_ t path →
        ∃ rest, l = path ++ t.key :: rest) ∧
    ∀ ts : List Trie, ∀ (path : List Char) (l : List Char), l ∈ labelsGo ts path →
        ∃ b ∈ ts, ∃ rest, l = path ++ b.key :: rest := by
  apply trie_ind
  · intro path l hl
    simp at hl
  · intro t ts pt qts path l hl
    rw [labelsGo_cons, List.mem_append] at hl
    rcases hl with hl | hl
    · obtain ⟨rest, hr⟩ := pt path l hl
      exact ⟨t, List.mem_cons_self t ts, rest, hr⟩
    · obtain ⟨b, hb, rest, hr⟩ := qts path l hl
      exact ⟨b, List.mem_cons_of_mem t hb, rest, hr⟩
  · intro k bs qbs path l hl
    cases bs with
    | nil =>
      rw [labels_nil_below] at hl
      simp at hl
      exact ⟨[], by simp [hl]⟩
    | cons b bs' =>
      rw [labels_cons_below] at hl
      obtain ⟨b', _, rest, hr⟩ := qbs (path ++ [k]) l hl
      refine ⟨b'.key :: rest, ?_⟩
      rw [hr, List.append_assoc, List.cons_append, List.nil_append, Trie.key_mk]

theorem labels_length :
    (∀ t : Trie, ∀ path : List Char, (Trie.labels_ t path).length = leafCount t) ∧
    ∀ ts : List Trie, ∀ path : List Char, (labelsGo ts path).length = leafCountGo ts := by
  apply trie_ind
  · intro path
    simp
  · intro t ts pt qts path
    rw [labelsGo_cons, List.length_append, pt path, qts path, leafCountGo_cons]
  · intro k bs qbs path
    cases bs with
    | nil => rfl
    | cons b bs' => rw [labels_cons_below, qbs]; rfl

theorem labels_pf {ks : List Char} (hks : ks.Nodup) :
    (∀ t : Trie, ∀ path : List Char, goodKeys ks t →
        (Trie.labels_ t path).Pairwise fun a b => ¬ IsPrefOf a b ∧ ¬ IsPrefOf b a) ∧
    ∀ ts : List Trie, ∀ path : List Char, (ts.map Trie.key).Nodup → goodKeysGo ks ts →
        (labelsGo ts path).Pairwise fun a b => ¬ IsPrefOf a b ∧ ¬ IsPrefOf b a := by
  apply trie_ind
  · intro path _ _
    simp
  · intro t ts pt qts path hnd hgo
    rw [labelsGo_cons, List.pairwise_append]
    rw [List.map_cons, List.nodup_cons] at hnd
    refine ⟨pt path hgo.1, qts path hnd.2 hgo.2, ?_⟩
    intro a ha b hb
    obtain ⟨ra, hra⟩ := labels_shape.1 t path a ha
    obtain ⟨b', hb', rb, hrb⟩ := labels_shape.2 ts path b hb
    have hne : t.key ≠ b'.key := by
      intro he
      exact hnd.1 (he ▸ List.mem_map_of_mem Trie.key hb')
    constructor
    · intro hp
      rw [hra, hrb] at hp
      exact hne (pref_head_eq hp)
    · intro hp
      rw [hra, hrb] at hp
      exact hne (pref_head_eq hp).symm
  · intro k bs qbs path hgk
    have hnd : (bs.map Trie.key).Nodup := by
      rw [hgk.1]
      exact (List.take_sublist _ _).nodup hks
    cases bs with
    | nil =>
      rw [labels_nil_below]
      exact List.pairwise_singleton _ _
    | cons b bs' =>
      rw [labels_cons_below]
      exact qbs (path ++ [k]) hnd hgk.2

theorem labels_pairwise_of_goodKeys {ks : List Char} (hks : ks.Nodup) {t : Trie}
    (hg : goodKeys ks t) :
    t.labels.Pairwise fun a b => ¬ IsPrefOf a b ∧ ¬ IsPrefOf b a := by
  cases t with
  | mk k bs =>
    have hnd : (bs.map Trie.key).Nodup := by
      rw [hg.1]
      exact (List.take_sublist _ _).nodup hks
    exact (labels_pf hks).2 bs [] hnd hg.2

theorem labels_length_eq (t : Trie) : t.labels.length = leafCountGo t.below' :=
  labels_length.2 t.below' []


/-! ### Reduction-side lemmas -/

theorem stripPref_self : ∀ l : List Char, stripPref l l = some [] := by
  intro l
  induction l with
  | nil => rfl
  | cons c cs ih => simp [stripPref, ih]

theorem stripPref_eq_some : ∀ p s r : List Char, (stripPref p s = some r ↔ s = p ++ r) := by
  intro p
  induction p with
  | nil =>
    intro s r
    simp [stripPref]
  | cons c cs ih =>
    intro s r
    cases s with
    | nil => simp [stripPref]
    | cons x xs =>
      by_cases hc : c = x
      · subst hc
        simp [stripPref, ih]
      · rw [stripPref, if_neg hc]
        constructor
        · intro h
          cases h
        · intro h
          rw [List.cons_append] at h
          injection h with h1 _
          exact (hc h1.symm).elim

theorem stripPref_eq_none {p s : List Char} : stripPref p s = none ↔ ¬ IsPrefOf p s := by
  constructor
  · intro h ⟨rest, hr⟩
    rw [(stripPref_eq_some p s rest).mpr hr] at h
    cases h
  · intro h
    cases hs : stripPref p s with
    | none => rfl
    | some r => exact absurd ⟨r, (stripPref_eq_some p s r).mp hs⟩ h

theorem stripPref_cons (c : Char) (cs s : List Char) :
    stripPref (c :: cs) s = (stripPref [c] s).bind (stripPref cs) := by
  cases s with
  | nil => rfl
  | cons x xs =>
    by_cases hc : c = x
    · simp [stripPref, hc]
    · simp [stripPref, hc]

theorem single_ne_escKey (c : Char) : [c] ≠ escKey := by
  intro h
  rw [escKey] at h
  cases h

theorem reduce_not_esc {sels : List Sel} {labels : List (List Char)} {key : List Char}
    (h : key ≠ escKey) :
    reduce sels labels key = .Reduced ((sels.zip labels).filterMap fun p =>
      (stripPref key p.2).map fun rest => ⟨p.1, rest⟩) := by
  rw [reduce, if_neg h]

theorem reduceStep_not_esc {rs : List ReplaceRange} {key : List Char} (h : key ≠ escKey) :
    reduceStep rs key = .Reduced (stepRanges rs key) := by
  rw [reduceStep, reduce_not_esc h, List.zip_map', List.filterMap_map]
  rfl

theorem filterMap_strip_nil : ∀ rs : List ReplaceRange,
    (rs.filterMap fun r => (stripPref [] r.label).map fun rest =>
      (⟨r.sel, rest⟩ : ReplaceRange)) = rs := by
  intro rs
  induction rs with
  | nil => rfl
  | cons r rs ih =>
    rw [List.filterMap_cons]
    exact congrArg (r :: ·) ih

theorem feed_eq : ∀ (s : List Char) (rs : List ReplaceRange),
    feed rs s = rs.filterMap fun r => (stripPref s r.label).map fun rest =>
      (⟨r.sel, rest⟩ : ReplaceRange) := by
  intro s
  induction s with
  | nil =>
    intro rs
    rw [feed]
    exact (filterMap_strip_nil rs).symm
  | cons c cs ih =>
    intro rs
    rw [feed, reduceStep_not_esc (single_ne_escKey c)]
    show feed (stepRanges rs [c]) cs = _
    rw [ih, stepRanges, List.filterMap_filterMap]
    apply List.filterMap_congr
    intro r _
    cases hstrip : stripPref [c] r.label with
    | none =>
      rw [stripPref_cons, hstrip]
      rfl
    | some rest =>
      rw [stripPref_cons, hstrip]
      simp

theorem feed_pairwise_single {r₀ : ReplaceRange} :
    ∀ {rs : List ReplaceRange},
      rs.Pairwise (fun a b => ¬ IsPrefOf a.label b.label ∧ ¬ IsPrefOf b.label a.label) →
      r₀ ∈ rs →
      (rs.filterMap fun r => (stripPref r₀.label r.label).map fun rest =>
        (⟨r.sel, rest⟩ : ReplaceRange)) = [⟨r₀.sel, []⟩] := by
  intro rs
  induction rs with
  | nil => intro _ hm; cases hm
  | cons r rs ih =>
    intro hp hm
    rw [List.pairwise_cons] at hp
    rcases List.mem_cons.mp hm with rfl | hm
    · rw [List.filterMap_cons, stripPref_self]
      have hnil : (rs.filterMap fun r => (stripPref r₀.label r.label).map
          fun rest => (⟨r.sel, rest⟩ : ReplaceRange)) = [] := by
        rw [List.filterMap_eq_nil_iff]
        intro b hb
        rw [stripPref_eq_none.mpr (hp.1 b hb).1]
        rfl
      rw [hnil]
      rfl
    · rw [List.filterMap_cons, stripPref_eq_none.mpr (hp.1 r₀ hm).2]
      exact ih hp.2 hm


/-! ### Termination and divergence of growth -/

theorem growE_push {fuel : Nat} {ks : List Char} {t : Trie} (h : t.below'.length < ks.length) :
    growE (fuel + 1) ks t = .ok ⟨t.key, t.below' ++ [⟨ks.getD t.below'.length ' ', []⟩]⟩ := by
  cases t with
  | mk k bs =>
    simp only [Trie.below'_mk, Trie.key_mk] at h ⊢
    rw [growE, if_pos h]

theorem except_bind_ok_of {x : Except GrowErr Trie} {f : Trie → Except GrowErr Trie}
    (hx : ∃ a, x = .ok a) (hf : ∀ a, x = .ok a → ∃ b, f a = .ok b) :
    ∃ b, (x >>= f) = .ok b := by
  obtain ⟨a, ha⟩ := hx
  obtain ⟨b, hb⟩ := hf a ha
  refine ⟨b, ?_⟩
  rw [ha]
  simpa [Bind.bind, Except.bind] using hb

theorem heightGo_mem : ∀ {ts : List Trie} {b : Trie}, b ∈ ts → b.height + 1 ≤ heightGo ts := by
  intro ts
  induction ts with
  | nil => intro b hb; cases hb
  | cons t ts ih =>
    intro b hb
    rcases List.mem_cons.mp hb with rfl | hb
    · rw [heightGo_cons]
      omega
    · rw [heightGo_cons]
      have := ih hb
      omega

theorem growE_terminates :
    ∀ (fuel : Nat) {ks : List Char} (t : Trie), 2 ≤ ks.length → t.height + 2 ≤ fuel →
      ∃ t', growE fuel ks t = .ok t' := by
  intro fuel
  induction fuel with
  | zero =>
    intro ks t _ hh
    omega
  | succ fuel ih =>
    intro ks t hk hh
    cases t with
    | mk k bs =>
      by_cases hlt : bs.length < ks.length
      · exact ⟨_, growE_push (t := ⟨k, bs⟩) hlt⟩
      · rw [growE, if_neg hlt]
        have hfuel1 : 1 ≤ fuel := by
          simp only [height_mk] at hh
          omega
        obtain ⟨f, rfl⟩ : ∃ f, fuel = f + 1 := ⟨fuel - 1, by omega⟩
        cases hri : rfindIdx ks.length bs with
        | some i =>
          obtain ⟨node, hnode, hroom⟩ := rfindIdx_some hri
          simp only [hnode]
          rw [hasRoom] at hroom
          simp only [decide_eq_true_eq] at hroom
          by_cases hemp : node.below'.isEmpty
          · simp only [if_pos hemp]
            rw [List.isEmpty_iff] at hemp
            have hlen0 : node.below'.length < ks.length := by
              rw [hemp]
              simp only [List.length_nil]
              omega
            apply except_bind_ok_of
            · exact ⟨_, growE_push hlen0⟩
            · intro a ha
              rw [growE_push hlen0] at ha
              cases ha
              apply except_bind_ok_of
              · refine ⟨_, growE_push ?_⟩
                simp only [Trie.below'_mk, hemp, List.nil_append, List.length_singleton]
                omega
              · intro b _
                exact ⟨_, rfl⟩
          · simp only [if_neg hemp]
            apply except_bind_ok_of
            · exact ⟨node, rfl⟩
            · intro a ha
              have ha' : node = a := by
                simpa [Bind.bind, Except.bind] using ha
              subst ha'
              apply except_bind_ok_of
              · exact ⟨_, growE_push hroom⟩
              · intro b _
                exact ⟨_, rfl⟩
        | none =>
          have hbs : bs ≠ [] := by
            intro he
            subst he
            simp only [List.length_nil] at hlt
            omega
          rw [List.getLast?_eq_getLast bs hbs]
          apply except_bind_ok_of
          · apply ih (bs.getLast hbs) hk
            have hmem := heightGo_mem (List.getLast_mem hbs)
            simp only [height_mk] at hh
            omega
          · intro a _
            exact ⟨_, rfl⟩

theorem growE_diverges_k1 :
    ∀ (fuel : Nat) (c : Char), growE fuel ['a'] ⟨c, [⟨'a', []⟩]⟩ = .error .outOfFuel := by
  intro fuel
  induction fuel with
  | zero => intro c; rfl
  | succ fuel ih =>
    intro c
    cases fuel with
    | zero => rfl
    | succ f =>
      have hunf : growE (f + 1 + 1) ['a'] (⟨c, [⟨'a', []⟩]⟩ : Trie)
          = (growE (f + 1) ['a'] (⟨'a', [⟨'a', []⟩]⟩ : Trie) >>= fun node =>
              .ok ⟨c, ([⟨'a', []⟩] : List Trie).set 0 node⟩) := rfl
      rw [hunf, ih 'a']
      rfl


/-! ### Height bounds and repeated-growth termination for k at least 2 -/

theorem height_eq (t : Trie) : t.height = heightGo t.below' := by
  cases t with
  | mk k bs => rfl

theorem heightGo_append (l₁ l₂ : List Trie) :
    heightGo (l₁ ++ l₂) = max (heightGo l₁) (heightGo l₂) := by
  induction l₁ with
  | nil => simp
  | cons t ts ih =>
    rw [List.cons_append, heightGo_cons, ih, heightGo_cons]
    omega

theorem heightGo_set :
    ∀ (ts : List Trie) (i : Nat) (x node : Trie), ts[i]? = some node →
      heightGo (ts.set i x) ≤ max (heightGo ts) (x.height + 1) := by
  intro ts
  induction ts with
  | nil => intro i x node h; simp at h
  | cons t ts ih =>
    intro i x node h
    cases i with
    | zero =>
      rw [List.set_cons_zero, heightGo_cons, heightGo_cons]
      omega
    | succ i =>
      simp at h
      rw [List.set_cons_succ, heightGo_cons, heightGo_cons]
      have := ih i x node h
      omega

theorem growE_height :
    ∀ (fuel : Nat) {ks : List Char} {t t' : Trie}, 2 ≤ ks.length →
      growE fuel ks t = .ok t' → t'.height ≤ t.height + 1 := by
  intro fuel
  induction fuel with
  | zero => intro ks t t' _ h; simp [growE] at h
  | succ fuel ih =>
    intro ks t t' hk h
    cases t with
    | mk k bs =>
      rw [growE] at h
      split at h
      · cases h
        rw [height_mk, height_mk, heightGo_append, heightGo_cons, heightGo_nil, height_mk,
          heightGo_nil]
        omega
      · split at h
        · rename_i i hri
          split at h
          · rename_i node hnode
            have hmem : node ∈ bs := by
              rw [List.getElem?_eq_some_iff] at hnode
              obtain ⟨hlt', he⟩ := hnode
              exact he ▸ List.getElem_mem hlt'
            have hnode' : bs[i]? = some node := by
              rw [List.getElem?_eq_some_iff] at hnode ⊢
              exact hnode
            have hhmem : node.height + 1 ≤ heightGo bs := heightGo_mem hmem
            by_cases hemp : node.below'.isEmpty
            · simp only [if_pos hemp] at h
              rw [except_bind_ok] at h
              obtain ⟨n1, h1, h⟩ := h
              rw [except_bind_ok] at h
              obtain ⟨n2, h2, h⟩ := h
              cases h
              rw [List.isEmpty_iff] at hemp
              cases fuel with
              | zero => simp [growE] at h1
              | succ f =>
                rw [growE_push (by rw [hemp]; simp only [List.length_nil]; omega)] at h1
                have hn1h : n1.height = 1 := by
                  cases h1
                  rw [height_mk, hemp, List.nil_append, heightGo_cons, heightGo_nil,
                    height_mk, heightGo_nil]
                  omega
                have hn1len : n1.below'.length = 1 := by
                  cases h1
                  rw [Trie.below'_mk, hemp, List.nil_append, List.length_singleton]
                rw [growE_push (by rw [hn1len]; omega)] at h2
                have hn2h : n2.height = 1 := by
                  cases h2
                  rw [height_mk, heightGo_append, ← height_eq, hn1h, heightGo_cons,
                    heightGo_nil, height_mk, heightGo_nil]
                  omega
                have hset := heightGo_set bs i n2 node hnode'
                rw [height_mk, height_mk]
                omega
            · have hroom : node.below'.length < ks.length := by
                obtain ⟨nodeok, hnodeok, hroomok⟩ := rfindIdx_some hri
                rw [hnode'] at hnodeok
                injection hnodeok with hx
                rw [hasRoom] at hroomok
                simp only [decide_eq_true_eq] at hroomok
                rw [hx]
                exact hroomok
              simp only [if_neg hemp] at h
              rw [except_bind_ok] at h
              obtain ⟨n1, h1, h⟩ := h
              rw [except_bind_ok] at h
              obtain ⟨n2, h2, h⟩ := h
              cases h
              cases h1
              cases fuel with
              | zero => simp [growE] at h2
              | succ f =>
                rw [growE_push hroom] at h2
                have hn2h : n2.height ≤ max node.height 1 := by
                  cases h2
                  rw [height_mk, heightGo_append, ← height_eq, heightGo_cons, heightGo_nil,
                    height_mk, heightGo_nil]
                  omega
                have hset := heightGo_set bs i n2 node hnode'
                rw [height_mk, height_mk]
                omega
          · cases h
        · rename_i hri
          split at h
          · cases h
          · rename_i last hlast
            rw [except_bind_ok] at h
            obtain ⟨l', hgl, h⟩ := h
            cases h
            have hih : l'.height ≤ last.height + 1 := ih hk hgl
            have hdecomp : bs.dropLast ++ [last] = bs := List.dropLast_append_getLast? last hlast
            have hbs : heightGo bs = max (heightGo bs.dropLast) (last.height + 1) := by
              conv_lhs => rw [← hdecomp]
              rw [heightGo_append, heightGo_cons, heightGo_nil]
              omega
            rw [height_mk, height_mk, heightGo_append, heightGo_cons, heightGo_nil]
            omega

theorem growRepeatedlyE_terminates :
    ∀ (n fuel : Nat) {ks : List Char} (t : Trie), 2 ≤ ks.length →
      t.height + n + 2 ≤ fuel → ∃ t', growRepeatedlyE fuel ks n t = .ok t' := by
  intro n
  induction n with
  | zero => intro fuel ks t _ _; exact ⟨t, rfl⟩
  | succ n ih =>
    intro fuel ks t hk hh
    obtain ⟨m, hm⟩ := growE_terminates fuel t hk (by omega)
    obtain ⟨t', ht'⟩ := ih fuel m hk (by have := growE_height fuel hk hm; omega)
    exact ⟨t', (growRepeatedlyE_succ fuel ks n t t').mpr ⟨m, hm, ht'⟩⟩

/-! ### Remaining assembly lemmas -/

theorem map_sel_filterMap_sublist (l : List (Sel × List Char)) (key : List Char) :
    ((l.filterMap fun p => (stripPref key p.2).map fun rest =>
      (⟨p.1, rest⟩ : ReplaceRange)).map fun r => r.sel).Sublist (l.map Prod.fst) := by
  induction l with
  | nil => simp
  | cons p l ih =>
    rw [List.filterMap_cons]
    cases hs : stripPref key p.2 with
    | none => exact ih.cons p.1
    | some rest => exact List.Sublist.cons₂ p.1 ih

theorem map_fst_zip_sublist : ∀ (sels : List Sel) (labels : List (List Char)),
    ((sels.zip labels).map Prod.fst).Sublist sels := by
  intro sels
  induction sels with
  | nil => intro labels; simp
  | cons s sels ih =>
    intro labels
    cases labels with
    | nil => simp
    | cons lab labels =>
      rw [List.zip_cons_cons, List.map_cons]
      exact List.Sublist.cons₂ s (ih labels)

/-! ### Claim theorems -/

/-- C1 (code behaviour at the failing input): the spec requires an empty
alphabet with at least one target to be signalled as a configuration error
— no panic, no tree, no output.  The code instead evaluates
`self.below.len() - 1` on the empty child list of the fresh root and
indexes out of range: generating labels for one selection with the empty
keyset panics. -/
theorem c1_empty_keyset_panics : generate_labels 1 [sel1] [] = .error .panic := rfl

/-- C2: for any keyset of size at least 1, whenever `n` growth calls on a
fresh trie complete, the extracted label list has exactly `n` entries. -/
theorem c2_label_count {fuel n : Nat} {ks : List Char} {t : Trie}
    (hk : 1 ≤ ks.length) (h : growRepeatedlyE fuel ks n Trie.default = .ok t) :
    t.labels.length = n := by
  have hne : ks ≠ [] := by
    intro he
    subst he
    simp at hk
  rw [labels_length_eq, growRepeatedlyE_leafCount n hne h]
  simp [Trie.default, Trie.below']

/-- Witness for C2: ten growth calls over the keyset a,b,c,d produce ten
labels. -/
theorem c2_label_count_witness :
    growRepeatedlyE 64 ['a', 'b', 'c', 'd'] 10 Trie.default = .ok trie10 ∧
    trie10.labels.length = 10 :=
  ⟨rfl, @c2_label_count 64 10 ['a', 'b', 'c', 'd'] trie10 (by decide) rfl⟩

/-- C3: with the alphabet a,b,c,d, four growth calls on a fresh trie yield
the labels a,b,c,d and ten growth calls yield a,b,ca,cb,cc,cd,da,db,dc,dd,
in those orders. -/
theorem c3_regression_vectors :
    (growRepeatedlyE 64 ['a', 'b', 'c', 'd'] 4 Trie.default).map Trie.labels
      = .ok [['a'], ['b'], ['c'], ['d']] ∧
    (growRepeatedlyE 64 ['a', 'b', 'c', 'd'] 10 Trie.default).map Trie.labels
      = .ok [['a'], ['b'], ['c', 'a'], ['c', 'b'], ['c', 'c'], ['c', 'd'],
             ['d', 'a'], ['d', 'b'], ['d', 'c'], ['d', 'd']] :=
  ⟨rfl, rfl⟩

/-- C4: for any duplicate-free alphabet of size at least 1, whenever `n`
growth calls on a fresh trie complete, the emitted label list is
prefix-free: no emitted label is a prefix of another. -/
theorem c4_prefix_free {fuel n : Nat} {ks : List Char} {t : Trie}
    (hnd : ks.Nodup) (_hk : 1 ≤ ks.length)
    (h : growRepeatedlyE fuel ks n Trie.default = .ok t) :
    t.labels.Pairwise fun a b => ¬ IsPrefOf a b ∧ ¬ IsPrefOf b a :=
  labels_pairwise_of_goodKeys hnd (growRepeatedlyE_goodKeys n h (goodKeys_default ks))

/-- Witness for C4 at the keyset a,b,c,d with ten growth calls. -/
theorem c4_prefix_free_witness :
    growRepeatedlyE 64 ['a', 'b', 'c', 'd'] 10 Trie.default = .ok trie10 ∧
    trie10.labels.Pairwise fun a b => ¬ IsPrefOf a b ∧ ¬ IsPrefOf b a :=
  ⟨rfl, @c4_prefix_free 64 10 ['a', 'b', 'c', 'd'] trie10 (by decide) (by decide) rfl⟩

/-- C5: for every pairing produced by label generation over a
duplicate-free alphabet, feeding the symbols of any one generated label,
in order, to the reduction step starting from the full candidate set ends
with exactly one surviving candidate — the selection originally zipped
with that label, its suffix fully consumed. -/
theorem c5_full_consumption_resolves {fuel : Nat} {sels : List Sel} {ks : List Char}
    {rs : List ReplaceRange} (hnd : ks.Nodup)
    (hgen : generate_labels fuel sels ks = .ok (.LabelsGenerated rs))
    {r : ReplaceRange} (hr : r ∈ rs) :
    feed rs r.label = [⟨r.sel, []⟩] := by
  rw [generate_labels, except_bind_ok] at hgen
  obtain ⟨t, hgrow, hres⟩ := hgen
  injection hres with hres
  injection hres with hres
  subst hres
  by_cases hks : ks = []
  · subst hks
    obtain ⟨hn0, ht⟩ := growRepeatedlyE_nil_keyset _ hgrow
    have hsels : sels = [] := List.length_eq_zero.mp hn0
    subst hsels
    subst ht
    simp at hr
  · have hlen : t.labels.length = sels.length := by
      rw [labels_length_eq, growRepeatedlyE_leafCount _ hks hgrow]
      simp [Trie.default, Trie.below']
    have hmapl : ((t.labels.zip sels).map fun p =>
        (⟨p.2, p.1⟩ : ReplaceRange)).map (fun r => r.label) = t.labels := by
      rw [List.map_map]
      exact List.map_fst_zip t.labels sels (le_of_eq hlen)
    have hpf : t.labels.Pairwise fun a b => ¬ IsPrefOf a b ∧ ¬ IsPrefOf b a :=
      labels_pairwise_of_goodKeys hnd (growRepeatedlyE_goodKeys _ hgrow (goodKeys_default ks))
    have hpr : ((t.labels.zip sels).map fun p => (⟨p.2, p.1⟩ : ReplaceRange)).Pairwise
        fun a b => ¬ IsPrefOf a.label b.label ∧ ¬ IsPrefOf b.label a.label := by
      rw [← hmapl] at hpf
      exact List.pairwise_map.mp hpf
    rw [feed_eq]
    exact feed_pairwise_single hpr hr

/-- Witness for C5: generating labels for two selections over a,b,c,d and
feeding the second label resolves to the second selection. -/
theorem c5_witness :
    (['a', 'b', 'c', 'd'] : List Char).Nodup ∧
    generate_labels 8 [sel1, sel2] ['a', 'b', 'c', 'd']
      = .ok (.LabelsGenerated [⟨sel1, ['a']⟩, ⟨sel2, ['b']⟩]) ∧
    (⟨sel2, ['b']⟩ : ReplaceRange) ∈ ([⟨sel1, ['a']⟩, ⟨sel2, ['b']⟩] : List ReplaceRange) ∧
    feed [⟨sel1, ['a']⟩, ⟨sel2, ['b']⟩] ['b'] = [⟨sel2, []⟩] :=
  ⟨by decide, rfl, by decide,
    @c5_full_consumption_resolves 8 [sel1, sel2] ['a', 'b', 'c', 'd']
      [⟨sel1, ['a']⟩, ⟨sel2, ['b']⟩] (by decide) rfl ⟨sel2, ['b']⟩ (by decide)⟩

/-- C6: a reduction step on one typed symbol (a single symbol is never the
abort key) returns exactly the candidates whose remaining label suffix
begins with that symbol, each with the leading symbol stripped — the
spec-modelled `reduceSpec` — and when no candidate's suffix begins with
the symbol the result is `Reduced []`, the spec's `Exhausted` outcome with
an empty candidate set. -/
theorem c6_single_symbol_step (sels : List Sel) (labels : List (List Char)) (c : Char) :
    reduce sels labels [c]
      = .Reduced (reduceSpec ((sels.zip labels).map fun p => ⟨p.1, p.2⟩) c) ∧
    ((∀ p ∈ sels.zip labels, ∀ rest : List Char, p.2 ≠ c :: rest) →
      reduce sels labels [c] = .Reduced []) := by
  constructor
  · rw [reduce_not_esc (single_ne_escKey c), reduceSpec, List.filterMap_map]
    congr 1
    apply List.filterMap_congr
    intro p _
    show (stripPref [c] p.2).map (fun rest => (⟨p.1, rest⟩ : ReplaceRange))
      = match p.2 with
        | [] => none
        | x :: rest => if x = c then some ⟨p.1, rest⟩ else none
    cases p.2 with
    | nil => rfl
    | cons x xs =>
      by_cases hc : c = x
      · subst hc
        simp [stripPref]
      · rw [stripPref, if_neg hc]
        simp [Ne.symm hc]
  · intro hmiss
    rw [reduce_not_esc (single_ne_escKey c)]
    have hnil : ((sels.zip labels).filterMap fun p =>
        (stripPref [c] p.2).map fun rest => (⟨p.1, rest⟩ : ReplaceRange)) = [] := by
      rw [List.filterMap_eq_nil_iff]
      intro p hp
      cases hp2 : p.2 with
      | nil => rfl
      | cons x xs =>
        by_cases hc : c = x
        · subst hc
          exact absurd hp2 (hmiss p hp xs)
        · rw [stripPref, if_neg hc]
          rfl
    rw [hnil]

/-- Witness for C6 on a concrete candidate. -/
theorem c6_witness :
    reduce [sel1] [['a', 'b']] ['a']
      = .Reduced (reduceSpec [⟨sel1, ['a', 'b']⟩] 'a') :=
  (c6_single_symbol_step [sel1] [['a', 'b']] 'a').1

/-- C7: a reduction step whose key is the abort key `<esc>` yields the
`Cleanup` response (the spec's `Cancelled` outcome), for every candidate
set — including the empty one — discarding all candidates. -/
theorem c7_abort_cancels (sels : List Sel) (labels : List (List Char)) :
    reduce sels labels escKey = .Cleanup := by
  rw [reduce, if_pos rfl]

/-- C8: generation with no targets returns the empty pairing and performs
no growth call (it succeeds with any fuel, including zero); generation
with exactly one target over any non-empty alphabet returns exactly one
pair whose label is the one-symbol string made of the alphabet's first
symbol. -/
theorem c8_edge_cases :
    (∀ (fuel : Nat) (keyset : List Char),
      generate_labels fuel [] keyset = .ok (.LabelsGenerated [])) ∧
    ∀ (fuel : Nat) (c : Char) (rest : List Char) (sel : Sel),
      generate_labels (fuel + 1) [sel] (c :: rest)
        = .ok (.LabelsGenerated [⟨sel, [c]⟩]) := by
  constructor
  · intro fuel keyset
    rfl
  · intro fuel c rest sel
    have h1 : growE (fuel + 1) (c :: rest) Trie.default = .ok ⟨' ', [⟨c, []⟩]⟩ := by
      rw [growE_push (by simp [Trie.default, Trie.below'])]
      rfl
    have h2 : growRepeatedlyE (fuel + 1) (c :: rest) 1 Trie.default = .ok ⟨' ', [⟨c, []⟩]⟩ :=
      (growRepeatedlyE_succ (fuel + 1) (c :: rest) 0 Trie.default _).mpr ⟨_, h1, rfl⟩
    rw [generate_labels, List.length_singleton, h2]
    rfl

/-- C9: a non-abort reduction step keeps each survivor's selection exactly
as in the input — its label was the typed key followed by the new suffix —
and survivors appear in the input order: their selections form a sublist
of the input selections. -/
theorem c9_frame_and_order {sels : List Sel} {labels : List (List Char)} {key : List Char}
    {rr : List ReplaceRange} (hkey : key ≠ escKey)
    (h : reduce sels labels key = .Reduced rr) :
    ((rr.map fun r => r.sel).Sublist sels) ∧
    ∀ r ∈ rr, (r.sel, key ++ r.label) ∈ sels.zip labels := by
  rw [reduce_not_esc hkey] at h
  injection h with h
  subst h
  constructor
  · exact (map_sel_filterMap_sublist _ key).trans (map_fst_zip_sublist sels labels)
  · intro r hr
    rw [List.mem_filterMap] at hr
    obtain ⟨p, hp, hf⟩ := hr
    cases hs : stripPref key p.2 with
    | none =>
      rw [hs] at hf
      cases hf
    | some rest =>
      rw [hs] at hf
      cases hf
      have hp2 : p.2 = key ++ rest := (stripPref_eq_some key p.2 rest).mp hs
      show (p.1, key ++ rest) ∈ sels.zip labels
      rw [← hp2]
      exact hp

/-- Witness for C9 on a concrete step. -/
theorem c9_witness :
    ((([⟨sel2, ['c']⟩] : List ReplaceRange).map fun r => r.sel).Sublist [sel1, sel2]) ∧
    ∀ r ∈ ([⟨sel2, ['c']⟩] : List ReplaceRange),
      (r.sel, ['b'] ++ r.label) ∈ ([sel1, sel2].zip [['a'], ['b', 'c']]) :=
  c9_frame_and_order (by decide) rfl

/-- C10 (amended): for every alphabet of size at least 2 a single growth
call terminates from any tree state — fuel of the tree's height plus two
always suffices — and hence growing any number of times terminates too;
for the singleton alphabet the original claim fails, see the
counterexample. -/
theorem c10_grow_terminates {ks : List Char} (hk : 2 ≤ ks.length) :
    (∀ (t : Trie) (fuel : Nat), t.height + 2 ≤ fuel → ∃ t', growE fuel ks t = .ok t') ∧
    ∀ (n : Nat) (t : Trie) (fuel : Nat), t.height + n + 2 ≤ fuel →
      ∃ t', growRepeatedlyE fuel ks n t = .ok t' :=
  ⟨fun t fuel hf => growE_terminates fuel t hk hf,
   fun n t fuel hf => growRepeatedlyE_terminates n fuel t hk hf⟩

/-- C10 counterexample: the tree reached from the fresh root by one growth
call over the singleton alphabet a is a reachable state on which the next
growth call recurses forever — it exhausts every amount of fuel. -/
theorem c10_counterexample :
    growE 1 ['a'] Trie.default = .ok ⟨' ', [⟨'a', []⟩]⟩ ∧
    ∀ fuel : Nat, growE fuel ['a'] ⟨' ', [⟨'a', []⟩]⟩ = .error .outOfFuel :=
  ⟨rfl, fun fuel => growE_diverges_k1 fuel ' '⟩

/-- Witness for C10 on the two-symbol alphabet a,b from the fresh root. -/
theorem c10_grow_terminates_witness :
    2 ≤ (['a', 'b'] : List Char).length ∧
    (∃ t', growE 2 ['a', 'b'] Trie.default = .ok t') ∧
    ∃ t', growRepeatedlyE 12 ['a', 'b'] 10 Trie.default = .ok t' :=
  ⟨by decide,
   (c10_grow_terminates (by decide)).1 Trie.default 2 (by decide),
   (c10_grow_terminates (by decide)).2 10 Trie.default 12 (by decide)⟩

end Hop
